import Mathlib

/-!
# Verification of the logits-processor layer of transformers.js

Shallow embedding of the logits-processing source file (the
`LogitsProcessorList`, `ForceTokensLogitsProcessor`,
`ForcedBOSTokenLogitsProcessor`, `WhisperTimeStampLogitsProcessor`,
`NoRepeatNGramLogitsProcessor` and `RepetitionPenaltyLogitsProcessor`
classes together with the n-gram helpers `getNgrams`,
`getGeneratedNgrams`, `calcBannedNgramTokens`).

Score buffers (`logits.data`, a JS typed array of floats) are embedded as
`List Score`, where `Score` distinguishes NaN, the two infinities and a
finite value (finite float values are modelled as exact rationals; the
claims verified below are structural — which entries become `-Infinity` /
`0` / stay untouched — and do not depend on rounding).  Typed-array
indexing follows JS semantics: out-of-range reads give `undefined` (which
behaves as NaN in every comparison and arithmetic operation performed by
this code on such a value), out-of-range writes are ignored, and
`subarray`/`slice` interpret negative indices relative to the end and
clamp.
-/

set_option autoImplicit false

namespace LogitsSpec

/-- A JS number held in a score buffer: NaN, -Infinity, +Infinity, or a
finite value (modelled as an exact rational). -/
inductive Score where
  | nan : Score
  | negInf : Score
  | posInf : Score
  | num (q : ℚ) : Score
  deriving DecidableEq, Repr

/-- JS `x < 0` on a buffer value.  NaN (and `undefined`, which we fold
into `nan`) compares false; `-Infinity < 0` is true. -/
def Score.ltZero : Score → Bool
  | .nan => false
  | .negInf => true
  | .posInf => false
  | .num q => decide (q < 0)

/-- JS multiplication `s * p` of a buffer value by a finite number `p`. -/
def Score.mul : Score → ℚ → Score
  | .nan, _ => .nan
  | .negInf, p => if 0 < p then .negInf else if p < 0 then .posInf else .nan
  | .posInf, p => if 0 < p then .posInf else if p < 0 then .negInf else .nan
  | .num q, p => .num (q * p)

/-- JS division `s / p` of a buffer value by a finite number `p`
(division by `0` gives a signed infinity, `0/0` gives NaN). -/
def Score.div : Score → ℚ → Score
  | .nan, _ => .nan
  | .negInf, p => if p < 0 then .posInf else .negInf
  | .posInf, p => if p < 0 then .negInf else .posInf
  | .num q, p =>
      if p = 0 then (if 0 < q then .posInf else if q < 0 then .negInf else .nan)
      else .num (q / p)

/-- A score buffer: `logits.data`, one entry per vocabulary index. -/
abbrev Buffer := List Score

/-- JS typed-array read `buf[i]`: out-of-range (or negative) indices read
`undefined`, which behaves as NaN in the comparisons and arithmetic this
code performs on it. -/
def bufGet (buf : Buffer) (i : ℤ) : Score :=
  if h : 0 ≤ i ∧ i.toNat < buf.length then buf.get ⟨i.toNat, h.2⟩ else .nan

/-- JS typed-array write `buf[i] = v`: out-of-range writes are ignored. -/
def bufSet (buf : Buffer) (i : ℤ) (v : Score) : Buffer :=
  if 0 ≤ i ∧ i.toNat < buf.length then buf.set i.toNat v else buf

/-- Resolve a JS relative index (as used by `slice`/`subarray`): negative
values count from the end; the result is clamped to `[0, len]`. -/
def jsIndex (len : Nat) (i : ℤ) : Nat :=
  if i < 0 then ((len : ℤ) + i).toNat else min i.toNat len

/-- JS `Array.prototype.slice(start, end)` (also the semantics of
`TypedArray.subarray`). -/
def jsSlice {α : Type} (l : List α) (start stop : ℤ) : List α :=
  (l.drop (jsIndex l.length start)).take (jsIndex l.length stop - jsIndex l.length start)

/-- `buf.subarray(start, stop).fill(v)`: overwrite the clamped index range
`[start, stop)` with `v`, leaving everything else in place. -/
def subarrayFill (buf : Buffer) (start stop : ℤ) (v : Score) : Buffer :=
  let s := jsIndex buf.length start
  let e := jsIndex buf.length stop
  buf.mapIdx (fun j x => if s ≤ j ∧ j < e then v else x)

/-! ## Rule Chain (`LogitsProcessorList`)

A rule (logits processor) mutates one row's buffer given the token
history; in the pure embedding it is a function from the history and the
buffer to the new buffer. -/

abbrev Rule := List ℤ → Buffer → Buffer

structure LogitsProcessorList where
  processors : List Rule

/-- `this.processors.forEach(func => func(input_ids, logits))`: apply the
rules left-to-right to one row's buffer. -/
def runRules : List Rule → List ℤ → Buffer → Buffer
  | [], _, buf => buf
  | p :: ps, ids, buf => runRules ps ids (p ids buf)

/-- The outer `for (let logits of batchedLogits)` loop of
`LogitsProcessorList._call`: each row's buffer is rewritten in place by
the rule chain; note the single `input_ids` shared by all rows. -/
def callRows (ps : List Rule) (ids : List ℤ) : List Buffer → List Buffer
  | [] => []
  | buf :: rest => runRules ps ids buf :: callRows ps ids rest

/-- `LogitsProcessorList._call(input_ids, batchedLogits)`. -/
def LogitsProcessorList.call (l : LogitsProcessorList) (ids : List ℤ)
    (batch : List Buffer) : List Buffer :=
  callRows l.processors ids batch

/-- `LogitsProcessorList.push(item)`. -/
def LogitsProcessorList.push (l : LogitsProcessorList) (p : Rule) :
    LogitsProcessorList :=
  ⟨l.processors ++ [p]⟩

/-- `LogitsProcessorList.extend(items)`. -/
def LogitsProcessorList.extend (l : LogitsProcessorList) (ps : List Rule) :
    LogitsProcessorList :=
  ⟨l.processors ++ ps⟩

/-! ## ForceTokensLogitsProcessor -/

/-- `Object.fromEntries(forced_decoder_ids ?? [])` followed by the lookup
`this.force_token_map[input_ids.length]`: keys are the first pair
components, later pairs overwrite earlier pairs with the same key, and a
missing key reads `undefined` (`none` here). -/
def forceTokenMapGet (forced : List (ℤ × ℤ)) (k : ℤ) : Option ℤ :=
  (forced.reverse.find? (fun e => decide (e.1 = k))).map Prod.snd

/-- `ForceTokensLogitsProcessor._call`: if the map has an entry for the
current history length, fill the buffer with `-Infinity` and set the
forced index to `0`; otherwise leave the buffer as is. -/
def forceTokensCall (forced : List (ℤ × ℤ)) (ids : List ℤ) (buf : Buffer) : Buffer :=
  match forceTokenMapGet forced (ids.length : ℤ) with
  | some t => bufSet (buf.map (fun _ => Score.negInf)) t (Score.num 0)
  | none => buf

/-! ## RepetitionPenaltyLogitsProcessor -/

/-- `RepetitionPenaltyLogitsProcessor._call`: for each element of
`input_ids`, in order, read the current score at that index; if it is
negative multiply it by `penalty`, otherwise divide it by `penalty`, and
write it back. -/
def repetitionPenaltyCall (penalty : ℚ) (ids : List ℤ) (buf : Buffer) : Buffer :=
  ids.foldl (fun b i =>
    if (bufGet b i).ltZero then bufSet b i ((bufGet b i).mul penalty)
    else bufSet b i ((bufGet b i).div penalty)) buf

/-- The transform the repetition penalty performs on one score. -/
def penaltyStep (penalty : ℚ) (s : Score) : Score :=
  if s.ltZero then s.mul penalty else s.div penalty

/-! ## NoRepeatNGramLogitsProcessor

The JS code keys a `Map` by `JSON.stringify(prevNgram)`; stringification
is injective on integer lists, so the embedding keys the association list
by the list itself. -/

abbrev NgramMap := List (List ℤ × List ℤ)

/-- `Map.get` (first — and only — entry with this key, else `undefined`). -/
def mapGetJS : NgramMap → List ℤ → Option (List ℤ)
  | [], _ => none
  | e :: rest, k => if e.1 = k then some e.2 else mapGetJS rest k

/-- `Map.set`: replace the value of an existing key in place, else append
a new entry. -/
def mapSetJS : NgramMap → List ℤ → List ℤ → NgramMap
  | [], k, v => [(k, v)]
  | e :: rest, k, v => if e.1 = k then (k, v) :: rest else e :: mapSetJS rest k v

/-- `ngram[ngram.length - 1]` (windows are non-empty whenever n ≥ 1). -/
def lastElem (l : List ℤ) : ℤ := l.getLastD 0

/-- The n-length windows collected by the first loop of `getNgrams`:
`for (let j = 0; j < curLen + 1 - ngramSize; ++j)` pushing
`[prevInputIds[j], ..., prevInputIds[j + ngramSize - 1]]`. -/
def getNgramWindows (n : Nat) (ids : List ℤ) : List (List ℤ) :=
  (List.range (ids.length + 1 - n)).map
    (fun j => (List.range n).map (fun k => ids.getD (j + k) 0))

/-- One iteration of the grouping loop in `getNgrams`: read the list
recorded for the window's key (`?? []`), push the window's last element,
and store it back. -/
def ngramFold (m : NgramMap) (ng : List ℤ) : NgramMap :=
  mapSetJS m ng.dropLast ((mapGetJS m ng.dropLast).getD [] ++ [lastElem ng])

/-- `getNgrams(ngramSize, prevInputIds)`: group the windows by their
first `n − 1` elements (`ngram.slice(0, ngram.length - 1)`, i.e.
`dropLast`), recording for each such key the final elements of its
windows, in window order. -/
def getNgrams (n : Nat) (ids : List ℤ) : NgramMap :=
  (getNgramWindows n ids).foldl ngramFold []

/-- `getGeneratedNgrams(bannedNgrams, prevInputIds, ngramSize)`: look up
the last `n − 1` elements of the history
(`prevInputIds.slice(prevInputIds.length + 1 - ngramSize, prevInputIds.length)`). -/
def getGeneratedNgrams (m : NgramMap) (ids : List ℤ) (n : Nat) : List ℤ :=
  (mapGetJS m (jsSlice ids ((ids.length : ℤ) + 1 - n) (ids.length : ℤ))).getD []

/-- `calcBannedNgramTokens(ngramSize, prevInputIds)`. -/
def calcBannedNgramTokens (n : Nat) (ids : List ℤ) : List ℤ :=
  if ids.length + 1 < n then []
  else getGeneratedNgrams (getNgrams n ids) ids n

/-- `NoRepeatNGramLogitsProcessor._call`: set every banned token's score
to `-Infinity`. -/
def noRepeatNGramCall (n : Nat) (ids : List ℤ) (buf : Buffer) : Buffer :=
  (calcBannedNgramTokens n ids).foldl (fun b t => bufSet b t Score.negInf) buf

/-! ## WhisperTimeStampLogitsProcessor -/

/-- A JS value that is `undefined` (field absent), `null`, or a number;
the type of the `max_initial_timestamp_index` configuration field. -/
inductive JSOptInt where
  | undef : JSOptInt
  | null : JSOptInt
  | num (z : ℤ) : JSOptInt
  deriving DecidableEq, Repr

structure WhisperCfg where
  eos_token_id : ℤ
  no_timestamps_token_id : ℤ
  timestamp_begin : ℤ
  begin_index : ℤ
  max_initial_timestamp_index : JSOptInt
  deriving DecidableEq, Repr

/-- The `WhisperTimeStampLogitsProcessor` constructor.  `forced` is
`none` when `generate_config.forced_decoder_ids` is `null` or absent; in
that case — and when the list is empty — the expression
`generate_config.forced_decoder_ids.slice(-1)[0][1]` throws a `TypeError`
(property access on `undefined`/`null`), so no instance is produced
(`none` result).  Otherwise `timestamp_begin = no_timestamps_token_id + 1`
and `begin_index = forced.length + 2`, decremented by 1 when the last
forced pair's token equals `no_timestamps_token_id`. -/
def whisperMakeCfg (eos no_ts : ℤ) (forced : Option (List (ℤ × ℤ)))
    (maxInit : JSOptInt) : Option WhisperCfg :=
  match forced with
  | none => none
  | some l =>
    match (jsSlice l (-1) (l.length : ℤ)).head? with
    | none => none
    | some lastPair =>
      some { eos_token_id := eos
             no_timestamps_token_id := no_ts
             timestamp_begin := no_ts + 1
             begin_index := ((l.length : ℤ) + 2) - (if lastPair.2 = no_ts then 1 else 0)
             max_initial_timestamp_index := maxInit }

/-- `const seq = input_ids.slice(this.begin_index)`. -/
def whisperSeq (cfg : WhisperCfg) (ids : List ℤ) : List ℤ :=
  jsSlice ids cfg.begin_index (ids.length : ℤ)

/-- `seq.length >= 1 && seq[seq.length - 1] >= this.timestamp_begin`. -/
def lastWasTimestamp (cfg : WhisperCfg) (ids : List ℤ) : Bool :=
  decide (1 ≤ (whisperSeq cfg ids).length) &&
    decide (cfg.timestamp_begin ≤
      (whisperSeq cfg ids).getD ((whisperSeq cfg ids).length - 1) 0)

/-- `seq.length < 2 || seq[seq.length - 2] >= this.timestamp_begin`. -/
def penultimateWasTimestamp (cfg : WhisperCfg) (ids : List ℤ) : Bool :=
  decide ((whisperSeq cfg ids).length < 2) ||
    decide (cfg.timestamp_begin ≤
      (whisperSeq cfg ids).getD ((whisperSeq cfg ids).length - 2) 0)

/-- The pairing-suppression block of `WhisperTimeStampLogitsProcessor._call`
(`seq` / `last_was_timestamp` / `penultimate_was_timestamp`). -/
def whisperPairing (cfg : WhisperCfg) (ids : List ℤ) (buf : Buffer) : Buffer :=
  if lastWasTimestamp cfg ids then
    if penultimateWasTimestamp cfg ids then
      subarrayFill buf cfg.timestamp_begin (buf.length : ℤ) Score.negInf
    else subarrayFill buf 0 cfg.eos_token_id Score.negInf
  else buf

/-- The `max_initial_timestamp` block.  The code guards on
`this.max_initial_timestamp_index !== null`, which is also true when the
field is absent (`undefined`); in that case `last_allowed` is
`timestamp_begin + undefined = NaN` and `subarray(NaN + 1)` clamps its
start index to 0, so the whole buffer is filled with `-Infinity`. -/
def whisperMaxInitial (cfg : WhisperCfg) (ids : List ℤ) (buf : Buffer) : Buffer :=
  if (ids.length : ℤ) = cfg.begin_index ∧
      cfg.max_initial_timestamp_index ≠ JSOptInt.null then
    match cfg.max_initial_timestamp_index with
    | JSOptInt.num m =>
        subarrayFill buf (cfg.timestamp_begin + m + 1) (buf.length : ℤ) Score.negInf
    | _ => subarrayFill buf 0 (buf.length : ℤ) Score.negInf
  else buf

/-- The final probability-mass step.  Its condition
(`timestamp_logprob > max_text_token_logprob`, computed by
`log_softmax`/`exp`/`log` over floats) is abstracted as a predicate
`tsCond` on the buffer as it stands before this step; the theorems below
hold for every such predicate, hence in particular for the actual
floating-point computation. -/
def whisperMass (tsCond : Buffer → Bool) (cfg : WhisperCfg) (buf : Buffer) : Buffer :=
  if tsCond buf then subarrayFill buf 0 cfg.timestamp_begin Score.negInf else buf

/-- `WhisperTimeStampLogitsProcessor._call`: suppress
`no_timestamps_token_id`; at history length `begin_index − 1` force
`timestamp_begin` and return; otherwise run the pairing suppression, the
`max_initial_timestamp` suppression, and the probability-mass step. -/
def whisperCall (tsCond : Buffer → Bool) (cfg : WhisperCfg) (ids : List ℤ)
    (buf : Buffer) : Buffer :=
  if (ids.length : ℤ) = cfg.begin_index - 1 then
    bufSet ((bufSet buf cfg.no_timestamps_token_id Score.negInf).map
      (fun _ => Score.negInf)) cfg.timestamp_begin (Score.num 0)
  else
    whisperMass tsCond cfg (whisperMaxInitial cfg ids
      (whisperPairing cfg ids (bufSet buf cfg.no_timestamps_token_id Score.negInf)))

/-! ## Basic buffer lemmas -/

theorem bufSet_length (buf : Buffer) (i : ℤ) (v : Score) :
    (bufSet buf i v).length = buf.length := by
  unfold bufSet; split <;> simp

theorem subarrayFill_length (buf : Buffer) (s e : ℤ) (v : Score) :
    (subarrayFill buf s e v).length = buf.length := by
  unfold subarrayFill; simp

theorem bufGet_bufSet_self (buf : Buffer) (i : ℤ) (v : Score)
    (h0 : 0 ≤ i) (h1 : i.toNat < buf.length) :
    bufGet (bufSet buf i v) i = v := by
  unfold bufGet bufSet
  rw [if_pos ⟨h0, h1⟩]
  have hlen : i.toNat < (buf.set i.toNat v).length := by simpa using h1
  rw [dif_pos ⟨h0, hlen⟩]
  simp [List.get_eq_getElem, List.getElem_set_self]

theorem bufGet_bufSet_ne (buf : Buffer) (i j : ℤ) (v : Score) (hne : i ≠ j) :
    bufGet (bufSet buf i v) j = bufGet buf j := by
  unfold bufGet bufSet
  by_cases hi : 0 ≤ i ∧ i.toNat < buf.length
  · rw [if_pos hi]
    by_cases hj : 0 ≤ j ∧ j.toNat < buf.length
    · have hjlen : j.toNat < (buf.set i.toNat v).length := by simpa using hj.2
      rw [dif_pos ⟨hj.1, hjlen⟩, dif_pos hj]
      have hij : i.toNat ≠ j.toNat := by omega
      simp [List.get_eq_getElem, List.getElem_set_ne hij]
    · rw [dif_neg (by simpa using hj), dif_neg hj]
  · rw [if_neg hi]

theorem bufSet_get (buf : Buffer) (i : ℤ) (v : Score) (j : Nat) (hj : j < buf.length) :
    (bufSet buf i v).get ⟨j, by rw [bufSet_length]; exact hj⟩ =
      if (j : ℤ) = i then v else buf.get ⟨j, hj⟩ := by
  unfold bufSet
  by_cases hc : 0 ≤ i ∧ i.toNat < buf.length
  · by_cases hji : (j : ℤ) = i
    · have : j = i.toNat := by omega
      subst this
      simp [hc, List.get_eq_getElem, List.getElem_set_self, hji]
    · have hne : i.toNat ≠ j := by omega
      simp [hc, List.get_eq_getElem, List.getElem_set_ne hne, hji]
  · have hji : ¬ ((j : ℤ) = i) := by
      intro hEq
      exact hc ⟨by omega, by omega⟩
    simp [hc, hji]

theorem list_set_get_self {α : Type} : ∀ (l : List α) (n : Nat) (h : n < l.length),
    l.set n (l.get ⟨n, h⟩) = l
  | _ :: _, 0, _ => rfl
  | a :: l, n + 1, h =>
      congrArg (a :: ·) (list_set_get_self l n (Nat.lt_of_succ_lt_succ h))

theorem bufSet_bufGet_self (buf : Buffer) (i : ℤ) :
    bufSet buf i (bufGet buf i) = buf := by
  unfold bufSet bufGet
  by_cases h : 0 ≤ i ∧ i.toNat < buf.length
  · rw [dif_pos h, if_pos h]
    exact list_set_get_self buf i.toNat h.2
  · rw [if_neg h]

theorem subarrayFill_get (buf : Buffer) (s e : ℤ) (v : Score) (j : Nat)
    (hj : j < buf.length) :
    (subarrayFill buf s e v).get ⟨j, by rw [subarrayFill_length]; exact hj⟩ =
      if jsIndex buf.length s ≤ j ∧ j < jsIndex buf.length e then v
      else buf.get ⟨j, hj⟩ := by
  unfold subarrayFill
  rw [List.get_mapIdx]

theorem bufGet_out_of_range (buf : Buffer) (j : ℤ)
    (h : ¬(0 ≤ j ∧ j.toNat < buf.length)) : bufGet buf j = Score.nan := by
  unfold bufGet; rw [dif_neg h]

theorem bufSet_out_of_range (buf : Buffer) (j : ℤ) (v : Score)
    (h : ¬(0 ≤ j ∧ j.toNat < buf.length)) : bufSet buf j v = buf := by
  unfold bufSet; rw [if_neg h]

theorem bufGet_map_const (buf : Buffer) (j : ℤ) (h0 : 0 ≤ j)
    (h1 : j.toNat < buf.length) (v : Score) :
    bufGet (buf.map (fun _ => v)) j = v := by
  unfold bufGet
  have hlen : j.toNat < (buf.map (fun _ => v)).length := by simpa using h1
  rw [dif_pos ⟨h0, hlen⟩]
  simp [List.get_eq_getElem]

/-! ## Rule chain lemmas -/

theorem callRows_eq_map (ps : List Rule) (ids : List ℤ) :
    ∀ batch : List Buffer, callRows ps ids batch = batch.map (runRules ps ids)
  | [] => rfl
  | buf :: rest => congrArg (runRules ps ids buf :: ·) (callRows_eq_map ps ids rest)

theorem runRules_append (ps qs : List Rule) (ids : List ℤ) :
    ∀ buf : Buffer, runRules (ps ++ qs) ids buf = runRules qs ids (runRules ps ids buf) := by
  induction ps with
  | nil => intro buf; rfl
  | cons p ps ih => intro buf; exact ih (p ids buf)

/-! ## Repetition-penalty lemmas -/

theorem penaltyStep_nan (p : ℚ) : penaltyStep p Score.nan = Score.nan := rfl

theorem repetitionPenaltyCall_cons (p : ℚ) (i : ℤ) (rest : List ℤ) (buf : Buffer) :
    repetitionPenaltyCall p (i :: rest) buf =
      repetitionPenaltyCall p rest
        (if (bufGet buf i).ltZero then bufSet buf i ((bufGet buf i).mul p)
         else bufSet buf i ((bufGet buf i).div p)) := rfl

theorem repetitionPenaltyCall_length (p : ℚ) (ids : List ℤ) :
    ∀ buf : Buffer, (repetitionPenaltyCall p ids buf).length = buf.length := by
  induction ids with
  | nil => intro buf; rfl
  | cons i rest ih =>
      intro buf
      rw [repetitionPenaltyCall_cons, ih]
      split <;> rw [bufSet_length]

theorem bufGet_penalty_body (p : ℚ) (b : Buffer) (i : ℤ) :
    bufGet (if (bufGet b i).ltZero then bufSet b i ((bufGet b i).mul p)
            else bufSet b i ((bufGet b i).div p)) i
      = penaltyStep p (bufGet b i) := by
  by_cases h : 0 ≤ i ∧ i.toNat < b.length
  · unfold penaltyStep
    split <;> rw [bufGet_bufSet_self _ _ _ h.1 h.2]
  · have hb := bufGet_out_of_range b i h
    have hnan : ∀ v, bufGet (bufSet b i v) i = Score.nan := by
      intro v; rw [bufSet_out_of_range b i v h]; exact hb
    rw [hb, penaltyStep_nan]
    simp [Score.ltZero, hnan]

theorem bufGet_penalty_body_ne (p : ℚ) (b : Buffer) (i j : ℤ) (hne : i ≠ j) :
    bufGet (if (bufGet b i).ltZero then bufSet b i ((bufGet b i).mul p)
            else bufSet b i ((bufGet b i).div p)) j
      = bufGet b j := by
  split <;> exact bufGet_bufSet_ne b i j _ hne

theorem repetitionPenaltyCall_get (p : ℚ) (ids : List ℤ) :
    ∀ (buf : Buffer) (j : ℤ),
      bufGet (repetitionPenaltyCall p ids buf) j =
        (ids.filter (fun i => decide (i = j))).foldl
          (fun s _ => penaltyStep p s) (bufGet buf j) := by
  induction ids with
  | nil => intro buf j; rfl
  | cons i rest ih =>
      intro buf j
      rw [repetitionPenaltyCall_cons, ih]
      by_cases hij : i = j
      · subst hij
        rw [List.filter_cons_of_pos (by simp), List.foldl_cons, bufGet_penalty_body]
      · rw [List.filter_cons_of_neg (by simpa using hij),
          bufGet_penalty_body_ne p buf i j hij]

theorem Score.mul_one (s : Score) : s.mul 1 = s := by
  cases s <;> norm_num [Score.mul]

theorem Score.div_one (s : Score) : s.div 1 = s := by
  cases s <;> norm_num [Score.div]

/-! ## Whisper lemmas -/

theorem bufGet_subarrayFill_in (buf : Buffer) (s e : ℤ) (v : Score) (k : ℤ)
    (h0 : 0 ≤ k) (h1 : k.toNat < buf.length) :
    bufGet (subarrayFill buf s e v) k =
      if jsIndex buf.length s ≤ k.toNat ∧ k.toNat < jsIndex buf.length e then v
      else bufGet buf k := by
  unfold bufGet
  have hlen : k.toNat < (subarrayFill buf s e v).length := by
    rw [subarrayFill_length]; exact h1
  rw [dif_pos ⟨h0, hlen⟩, dif_pos ⟨h0, h1⟩]
  exact subarrayFill_get buf s e v k.toNat h1

theorem subarrayFill_preserves_negInf (buf : Buffer) (s e k : ℤ)
    (h : bufGet buf k = Score.negInf) :
    bufGet (subarrayFill buf s e Score.negInf) k = Score.negInf := by
  by_cases hk : 0 ≤ k ∧ k.toNat < buf.length
  · rw [bufGet_subarrayFill_in buf s e _ k hk.1 hk.2]
    split
    · rfl
    · exact h
  · rw [bufGet_out_of_range buf k hk] at h
    exact Score.noConfusion h

theorem whisperMass_preserves_negInf (tsCond : Buffer → Bool) (cfg : WhisperCfg)
    (buf : Buffer) (k : ℤ) (h : bufGet buf k = Score.negInf) :
    bufGet (whisperMass tsCond cfg buf) k = Score.negInf := by
  unfold whisperMass
  split
  · exact subarrayFill_preserves_negInf _ _ _ _ h
  · exact h

theorem whisperMaxInitial_preserves_negInf (cfg : WhisperCfg) (ids : List ℤ)
    (buf : Buffer) (k : ℤ) (h : bufGet buf k = Score.negInf) :
    bufGet (whisperMaxInitial cfg ids buf) k = Score.negInf := by
  unfold whisperMaxInitial
  split
  · split
    · exact subarrayFill_preserves_negInf _ _ _ _ h
    · exact subarrayFill_preserves_negInf _ _ _ _ h
  · exact h

theorem whisperPairing_preserves_negInf (cfg : WhisperCfg) (ids : List ℤ)
    (buf : Buffer) (k : ℤ) (h : bufGet buf k = Score.negInf) :
    bufGet (whisperPairing cfg ids buf) k = Score.negInf := by
  unfold whisperPairing
  split
  · split
    · exact subarrayFill_preserves_negInf _ _ _ _ h
    · exact subarrayFill_preserves_negInf _ _ _ _ h
  · exact h

theorem whisperMakeCfg_fields (eos no_ts : ℤ) (forced : Option (List (ℤ × ℤ)))
    (maxInit : JSOptInt) (cfg : WhisperCfg)
    (hcfg : whisperMakeCfg eos no_ts forced maxInit = some cfg) :
    cfg.eos_token_id = eos ∧ cfg.no_timestamps_token_id = no_ts ∧
    cfg.timestamp_begin = no_ts + 1 ∧ cfg.max_initial_timestamp_index = maxInit := by
  unfold whisperMakeCfg at hcfg
  split at hcfg
  · cases hcfg
  · split at hcfg
    · cases hcfg
    · injection hcfg with h
      subst h
      exact ⟨rfl, rfl, rfl, rfl⟩

theorem jsIndex_of_nonneg_le (len : Nat) (i : ℤ) (h0 : 0 ≤ i) (h1 : i ≤ (len : ℤ)) :
    jsIndex len i = i.toNat := by
  unfold jsIndex
  rw [if_neg (by omega)]
  exact Nat.min_eq_left (by omega)

theorem jsIndex_len (len : Nat) : jsIndex len (len : ℤ) = len := by
  unfold jsIndex
  rw [if_neg (by omega)]
  simp

theorem last_flag_iff (seq : List ℤ) (tb : ℤ) :
    (1 ≤ seq.length ∧ tb ≤ seq.getD (seq.length - 1) 0) ↔
      (∃ x, seq.getLast? = some x ∧ tb ≤ x) := by
  rw [List.getLast?_eq_getElem?, List.getD_eq_getElem?_getD]
  cases hs : seq[seq.length - 1]? with
  | none =>
      rw [List.getElem?_eq_none_iff] at hs
      constructor
      · intro ⟨h1, _⟩; omega
      · intro ⟨x, hx, _⟩; cases hx
  | some x =>
      have hlen : seq.length - 1 < seq.length := by
        by_contra hc
        rw [List.getElem?_eq_none_iff.mpr (by omega)] at hs
        cases hs
      constructor
      · intro ⟨_, h2⟩
        exact ⟨x, rfl, by simpa using h2⟩
      · intro ⟨y, hy, h2⟩
        injection hy with hy
        subst hy
        exact ⟨by omega, by simpa using h2⟩

/-! ## N-gram lemmas -/

theorem mapGetJS_mapSetJS_self (k v : List ℤ) :
    ∀ m : NgramMap, mapGetJS (mapSetJS m k v) k = some v := by
  intro m
  induction m with
  | nil => simp [mapSetJS, mapGetJS]
  | cons e rest ih =>
      by_cases he : e.1 = k
      · simp [mapSetJS, mapGetJS, he]
      · simp [mapSetJS, mapGetJS, he, ih]

theorem mapGetJS_mapSetJS_ne (k k' v : List ℤ) (h : k ≠ k') :
    ∀ m : NgramMap, mapGetJS (mapSetJS m k v) k' = mapGetJS m k' := by
  intro m
  induction m with
  | nil => simp [mapSetJS, mapGetJS, h]
  | cons e rest ih =>
      by_cases he : e.1 = k
      · simp [mapSetJS, mapGetJS, he, h]
      · simp [mapSetJS, mapGetJS, he, ih]

theorem mapGetJS_foldl_ngramFold (k : List ℤ) :
    ∀ (ws : List (List ℤ)) (m : NgramMap),
      mapGetJS (ws.foldl ngramFold m) k =
        if mapGetJS m k = none ∧ ws.filter (fun w => decide (w.dropLast = k)) = []
        then none
        else some ((mapGetJS m k).getD [] ++
          (ws.filter (fun w => decide (w.dropLast = k))).map lastElem) := by
  intro ws
  induction ws with
  | nil =>
      intro m
      simp only [List.foldl_nil, List.filter_nil, List.map_nil, List.append_nil, and_true]
      cases hm : mapGetJS m k with
      | none => simp
      | some v => simp
  | cons ng rest ih =>
      intro m
      rw [List.foldl_cons, ih (ngramFold m ng)]
      by_cases hk : ng.dropLast = k
      · have hm' : mapGetJS (ngramFold m ng) k
            = some ((mapGetJS m k).getD [] ++ [lastElem ng]) := by
          unfold ngramFold
          rw [hk]
          exact mapGetJS_mapSetJS_self k _ m
        have hfc : (ng :: rest).filter (fun w => decide (w.dropLast = k)) =
            ng :: rest.filter (fun w => decide (w.dropLast = k)) :=
          List.filter_cons_of_pos (by simpa using hk)
        rw [hfc, if_neg (by simp [hm']), if_neg (by simp), hm']
        simp
      · have hm' : mapGetJS (ngramFold m ng) k = mapGetJS m k := by
          unfold ngramFold
          exact mapGetJS_mapSetJS_ne ng.dropLast k _ hk m
        have hfc : (ng :: rest).filter (fun w => decide (w.dropLast = k)) =
            rest.filter (fun w => decide (w.dropLast = k)) :=
          List.filter_cons_of_neg (by simpa using hk)
        rw [hfc, hm']

theorem window_eq_take_drop (ids : List ℤ) (n j : Nat) (h : j + n ≤ ids.length) :
    (List.range n).map (fun k => ids.getD (j + k) 0) = (ids.drop j).take n := by
  apply List.ext_getElem
  · simp only [List.length_map, List.length_range, List.length_take, List.length_drop]
    omega
  · intro i h1 h2
    simp only [List.getElem_map, List.getElem_range, List.getElem_take, List.getElem_drop]
    rw [List.getD_eq_getElem?_getD,
      List.getElem?_eq_getElem (by simp at h1; omega)]
    rfl

theorem getNgramWindows_mem (n : Nat) (ids : List ℤ) (w : List ℤ) :
    w ∈ getNgramWindows n ids ↔ ∃ j, j + n ≤ ids.length ∧ w = (ids.drop j).take n := by
  unfold getNgramWindows
  rw [List.mem_map]
  constructor
  · intro ⟨j, hj, hw⟩
    rw [List.mem_range] at hj
    exact ⟨j, by omega, by rw [← hw, window_eq_take_drop ids n j (by omega)]⟩
  · intro ⟨j, hj, hw⟩
    refine ⟨j, List.mem_range.mpr (by omega), ?_⟩
    rw [window_eq_take_drop ids n j hj, hw]

theorem window_dropLast (ids : List ℤ) (n j : Nat) (hn : 1 ≤ n) (h : j + n ≤ ids.length) :
    ((ids.drop j).take n).dropLast = (ids.drop j).take (n - 1) := by
  rw [List.dropLast_eq_take, List.length_take, List.length_drop, List.take_take]
  have h1 : min n (ids.length - j) = n := Nat.min_eq_left (by omega)
  rw [h1]
  have h2 : min (n - 1) n = n - 1 := Nat.min_eq_left (by omega)
  rw [h2]

theorem window_lastElem (ids : List ℤ) (n j : Nat) (hn : 1 ≤ n) (h : j + n ≤ ids.length) :
    lastElem ((ids.drop j).take n) = ids.getD (j + (n - 1)) 0 := by
  unfold lastElem
  have hlen : ((ids.drop j).take n).length = n := by
    rw [List.length_take, List.length_drop]
    exact Nat.min_eq_left (by omega)
  rw [List.getLastD_eq_getLast?, List.getLast?_eq_getElem?, hlen,
    List.getElem?_eq_getElem (by rw [hlen]; omega)]
  simp only [List.getElem_take, List.getElem_drop, Option.getD_some]
  rw [List.getD_eq_getElem?_getD, List.getElem?_eq_getElem (by omega)]
  rfl

theorem recentKey_eq_drop (n : Nat) (ids : List ℤ) (hn : 1 ≤ n) (h : n ≤ ids.length + 1) :
    jsSlice ids ((ids.length : ℤ) + 1 - n) (ids.length : ℤ)
      = ids.drop (ids.length + 1 - n) := by
  unfold jsSlice
  rw [jsIndex_of_nonneg_le ids.length ((ids.length : ℤ) + 1 - n) (by omega) (by omega),
    jsIndex_len]
  have ht : ((ids.length : ℤ) + 1 - n).toNat = ids.length + 1 - n := by omega
  rw [ht]
  apply List.take_of_length_le
  rw [List.length_drop]

theorem calcBanned_eq_filterMap (n : Nat) (ids : List ℤ) (hn : 1 ≤ n)
    (h : n ≤ ids.length + 1) :
    calcBannedNgramTokens n ids =
      ((getNgramWindows n ids).filter
        (fun w => decide (w.dropLast = ids.drop (ids.length + 1 - n)))).map lastElem := by
  unfold calcBannedNgramTokens
  rw [if_neg (by omega)]
  unfold getGeneratedNgrams
  rw [recentKey_eq_drop n ids hn h]
  unfold getNgrams
  rw [mapGetJS_foldl_ngramFold (ids.drop (ids.length + 1 - n)) (getNgramWindows n ids) []]
  by_cases hf : (getNgramWindows n ids).filter
      (fun w => decide (w.dropLast = ids.drop (ids.length + 1 - n))) = []
  · rw [if_pos ⟨rfl, hf⟩, hf]
    rfl
  · rw [if_neg (by intro hc; exact hf hc.2)]
    simp [mapGetJS]

theorem calcBanned_mem_iff (n : Nat) (hn : 1 ≤ n) (ids : List ℤ) (t : ℤ) :
    t ∈ calcBannedNgramTokens n ids ↔
      ∃ j, j + n ≤ ids.length ∧
        (ids.drop j).take (n - 1) = ids.drop (ids.length + 1 - n) ∧
        t = ids.getD (j + (n - 1)) 0 := by
  by_cases h : n ≤ ids.length + 1
  case neg =>
    unfold calcBannedNgramTokens
    rw [if_pos (by omega)]
    simp only [List.not_mem_nil, false_iff]
    intro ⟨j, hj, _⟩
    omega
  case pos =>
    rw [calcBanned_eq_filterMap n ids hn h, List.mem_map]
    constructor
    · intro ⟨w, hw, ht⟩
      rw [List.mem_filter] at hw
      obtain ⟨hwin, hpre⟩ := hw
      rw [getNgramWindows_mem] at hwin
      obtain ⟨j, hj, hweq⟩ := hwin
      subst hweq
      refine ⟨j, hj, ?_, ?_⟩
      · rw [← window_dropLast ids n j hn hj]
        simpa using hpre
      · rw [← window_lastElem ids n j hn hj]
        exact ht.symm
    · intro ⟨j, hj, hpre, ht⟩
      refine ⟨(ids.drop j).take n, ?_, ?_⟩
      · rw [List.mem_filter]
        refine ⟨(getNgramWindows_mem n ids _).mpr ⟨j, hj, rfl⟩, ?_⟩
        rw [decide_eq_true_eq, window_dropLast ids n j hn hj]
        exact hpre
      · rw [window_lastElem ids n j hn hj]
        exact ht.symm

theorem foldl_bufSet_negInf (ts : List ℤ) :
    ∀ (buf : Buffer) (j : ℤ),
      bufGet (ts.foldl (fun b t => bufSet b t Score.negInf) buf) j =
        if j ∈ ts ∧ 0 ≤ j ∧ j.toNat < buf.length then Score.negInf
        else bufGet buf j := by
  induction ts with
  | nil =>
      intro buf j
      simp
  | cons t rest ih =>
      intro buf j
      rw [List.foldl_cons, ih (bufSet buf t Score.negInf) j, bufSet_length]
      by_cases htj : t = j
      · subst htj
        by_cases hr : 0 ≤ t ∧ t.toNat < buf.length
        · rw [bufGet_bufSet_self buf t _ hr.1 hr.2, ite_self,
            if_pos ⟨List.mem_cons_self t rest, hr⟩]
        · rw [bufSet_out_of_range buf t _ hr, if_neg (fun hc => hr hc.2),
            if_neg (fun hc => hr hc.2)]
      · rw [bufGet_bufSet_ne buf t j _ htj]
        have hiff : (j ∈ rest) ↔ (j ∈ t :: rest) := by
          rw [List.mem_cons]
          have : ¬(j = t) := fun hEq => htj hEq.symm
          tauto
        exact if_congr (and_congr_left' hiff) rfl rfl

/-! ## Claim theorems -/

/-- C10: constructing the `WhisperTimeStampLogitsProcessor` with
`forced_decoder_ids` absent/`null` or equal to the empty list always
fails (`forced_decoder_ids.slice(-1)[0][1]` throws a `TypeError`), and a
non-empty list of pairs always produces an instance. -/
theorem whisper_constructor_requires_forced_ids (eos no_ts : ℤ) (maxInit : JSOptInt) :
    whisperMakeCfg eos no_ts none maxInit = none ∧
    whisperMakeCfg eos no_ts (some []) maxInit = none ∧
    (∀ l : List (ℤ × ℤ), l ≠ [] →
      (whisperMakeCfg eos no_ts (some l) maxInit).isSome = true) := by
  refine ⟨rfl, rfl, ?_⟩
  intro l hl
  cases l with
  | nil => exact absurd rfl hl
  | cons a t =>
      have h1 : (jsSlice (a :: t) (-1) ((a :: t).length : ℤ)).length = 1 := by
        unfold jsSlice jsIndex
        rw [if_pos (by norm_num : (-1 : ℤ) < 0),
          if_neg (by omega : ¬((((a :: t).length : ℕ) : ℤ) < 0))]
        simp only [List.length_take, List.length_drop, Int.toNat_natCast, Nat.min_self]
        simp only [List.length_cons]
        omega
      simp only [whisperMakeCfg]
      cases hj : jsSlice (a :: t) (-1) ((a :: t).length : ℤ) with
      | nil => rw [hj] at h1; exact absurd h1 (by simp)
      | cons b t2 => rfl

/-- C10 witness: a concrete empty / non-empty `forced_decoder_ids`. -/
theorem whisper_constructor_requires_forced_ids_witness :
    whisperMakeCfg 9 8 none JSOptInt.null = none ∧
    whisperMakeCfg 9 8 (some []) JSOptInt.null = none ∧
    (whisperMakeCfg 9 8 (some [(0, 5)]) JSOptInt.null).isSome = true := by
  have h := whisper_constructor_requires_forced_ids 9 8 JSOptInt.null
  exact ⟨h.1, h.2.1, h.2.2 [(0, 5)] (by decide)⟩

/-- C4: for every configuration produced by the constructor, every
history, every buffer (with `no_timestamps_token_id` a valid index) and
every outcome of the probability-mass comparison, the buffer entry at
`no_timestamps_token_id` is `-Infinity` after
`WhisperTimeStampLogitsProcessor._call` returns, on every branch. -/
theorem whisper_no_timestamps_always_suppressed (eos no_ts : ℤ)
    (forced : Option (List (ℤ × ℤ))) (maxInit : JSOptInt) (cfg : WhisperCfg)
    (hcfg : whisperMakeCfg eos no_ts forced maxInit = some cfg)
    (tsCond : Buffer → Bool) (ids : List ℤ) (buf : Buffer)
    (h0 : 0 ≤ no_ts) (h1 : no_ts.toNat < buf.length) :
    bufGet (whisperCall tsCond cfg ids buf) no_ts = Score.negInf := by
  obtain ⟨-, hnts, htb, -⟩ := whisperMakeCfg_fields eos no_ts forced maxInit cfg hcfg
  unfold whisperCall
  split
  · have hne : cfg.timestamp_begin ≠ no_ts := by omega
    rw [bufGet_bufSet_ne _ _ _ _ hne]
    exact bufGet_map_const _ no_ts h0 (by rw [bufSet_length]; exact h1) _
  · apply whisperMass_preserves_negInf
    apply whisperMaxInitial_preserves_negInf
    apply whisperPairing_preserves_negInf
    rw [hnts]
    exact bufGet_bufSet_self buf no_ts Score.negInf h0 h1

/-- C4 witness: concrete configuration (`eos = 9`,
`no_timestamps_token_id = 8`, one forced pair, no max-initial index),
history `[0, 1]` and a 10-entry buffer: entry 8 ends at `-Infinity`. -/
theorem whisper_no_timestamps_always_suppressed_witness :
    bufGet (whisperCall (fun _ => false) ⟨9, 8, 9, 3, JSOptInt.null⟩ [0, 1]
      (List.replicate 10 (Score.num 1))) 8 = Score.negInf :=
  whisper_no_timestamps_always_suppressed 9 8 (some [(0, 5)]) JSOptInt.null
    ⟨9, 8, 9, 3, JSOptInt.null⟩ (by decide) (fun _ => false) [0, 1]
    (List.replicate 10 (Score.num 1)) (by decide) (by decide)

/-- C5: when the history length equals `begin_index − 1`, the call
returns a buffer that is `0` at `timestamp_begin`
(= `no_timestamps_token_id + 1`) and `-Infinity` everywhere else, and the
result does not depend on the probability-mass comparison (none of the
later steps contributes). -/
theorem whisper_force_first_timestamp (eos no_ts : ℤ)
    (forced : Option (List (ℤ × ℤ))) (maxInit : JSOptInt) (cfg : WhisperCfg)
    (hcfg : whisperMakeCfg eos no_ts forced maxInit = some cfg)
    (tsCond : Buffer → Bool) (ids : List ℤ) (buf : Buffer)
    (hlen : (ids.length : ℤ) = cfg.begin_index - 1)
    (htb0 : 0 ≤ cfg.timestamp_begin) (htb1 : cfg.timestamp_begin.toNat < buf.length) :
    cfg.timestamp_begin = cfg.no_timestamps_token_id + 1 ∧
    bufGet (whisperCall tsCond cfg ids buf) cfg.timestamp_begin = Score.num 0 ∧
    (∀ j : ℤ, 0 ≤ j → j.toNat < buf.length → j ≠ cfg.timestamp_begin →
      bufGet (whisperCall tsCond cfg ids buf) j = Score.negInf) ∧
    (∀ tsCond' : Buffer → Bool,
      whisperCall tsCond' cfg ids buf = whisperCall tsCond cfg ids buf) := by
  obtain ⟨-, hnts, htb, -⟩ := whisperMakeCfg_fields eos no_ts forced maxInit cfg hcfg
  have hmap : ∀ j : ℤ, 0 ≤ j → j.toNat < buf.length →
      bufGet ((bufSet buf cfg.no_timestamps_token_id Score.negInf).map
        (fun _ => Score.negInf)) j = Score.negInf := by
    intro j hj0 hj1
    exact bufGet_map_const _ j hj0 (by rw [bufSet_length]; exact hj1) _
  refine ⟨by omega, ?_, ?_, ?_⟩
  · unfold whisperCall
    rw [if_pos hlen]
    exact bufGet_bufSet_self _ _ _ htb0 (by simp [bufSet_length]; exact htb1)
  · intro j hj0 hj1 hjt
    unfold whisperCall
    rw [if_pos hlen, bufGet_bufSet_ne _ _ _ _ (fun hEq => hjt hEq.symm)]
    exact hmap j hj0 hj1
  · intro tsCond'
    unfold whisperCall
    rw [if_pos hlen, if_pos hlen]

/-- C6: the pairing step of the TimestampConstraint rule.  `seq` is the
history from `begin_index` on; `last_was_timestamp` holds iff `seq` is
non-empty with last element ≥ `timestamp_begin` (first conjunct); when
both flags hold every entry from `timestamp_begin` to the end becomes
`-Infinity` and the rest is untouched; when only `last_was_timestamp`
holds every entry at index `< eos_token_id` becomes `-Infinity` and
`eos_token_id` itself and the timestamp range are untouched by this step;
when `last_was_timestamp` fails the step changes nothing. -/
theorem whisper_pairing_spec (cfg : WhisperCfg) (ids : List ℤ) (buf : Buffer)
    (htb0 : 0 ≤ cfg.timestamp_begin) (htb1 : cfg.timestamp_begin ≤ (buf.length : ℤ))
    (heos0 : 0 ≤ cfg.eos_token_id) (heos1 : cfg.eos_token_id ≤ (buf.length : ℤ)) :
    (lastWasTimestamp cfg ids = true ↔
      ∃ x, (whisperSeq cfg ids).getLast? = some x ∧ cfg.timestamp_begin ≤ x) ∧
    (lastWasTimestamp cfg ids = true → penultimateWasTimestamp cfg ids = true →
      ∀ j : ℤ, 0 ≤ j → j.toNat < buf.length →
        bufGet (whisperPairing cfg ids buf) j =
          (if cfg.timestamp_begin ≤ j then Score.negInf else bufGet buf j)) ∧
    (lastWasTimestamp cfg ids = true → penultimateWasTimestamp cfg ids = false →
      ∀ j : ℤ, 0 ≤ j → j.toNat < buf.length →
        bufGet (whisperPairing cfg ids buf) j =
          (if j < cfg.eos_token_id then Score.negInf else bufGet buf j)) ∧
    (lastWasTimestamp cfg ids = false → whisperPairing cfg ids buf = buf) := by
  refine ⟨?_, ?_, ?_, ?_⟩
  · rw [show lastWasTimestamp cfg ids =
        (decide (1 ≤ (whisperSeq cfg ids).length) &&
          decide (cfg.timestamp_begin ≤
            (whisperSeq cfg ids).getD ((whisperSeq cfg ids).length - 1) 0)) from rfl,
      Bool.and_eq_true, decide_eq_true_eq, decide_eq_true_eq]
    exact last_flag_iff (whisperSeq cfg ids) cfg.timestamp_begin
  · intro hlast hpen j hj0 hj1
    unfold whisperPairing
    rw [if_pos hlast, if_pos hpen,
      bufGet_subarrayFill_in buf _ _ _ j hj0 hj1,
      jsIndex_of_nonneg_le buf.length cfg.timestamp_begin htb0 htb1, jsIndex_len]
    by_cases hc : cfg.timestamp_begin ≤ j
    · rw [if_pos (by omega), if_pos hc]
    · rw [if_neg (by omega), if_neg hc]
  · intro hlast hpen j hj0 hj1
    unfold whisperPairing
    rw [if_pos hlast, if_neg (by simp [hpen]),
      bufGet_subarrayFill_in buf _ _ _ j hj0 hj1,
      jsIndex_of_nonneg_le buf.length 0 le_rfl (by omega),
      jsIndex_of_nonneg_le buf.length cfg.eos_token_id heos0 heos1]
    by_cases hc : j < cfg.eos_token_id
    · rw [if_pos (by omega), if_pos hc]
    · rw [if_neg (by omega), if_neg hc]
  · intro hlast
    unfold whisperPairing
    rw [if_neg (by simp [hlast])]

/-- C6 witness: `timestamp_begin = 9`, `begin_index = 3`, history
`[0, 0, 0, 10]` (one post-prefix token, a timestamp), 12-entry buffer:
the flags make the both-timestamps branch fire and entry 10 is
suppressed while entry 5 is untouched; a non-timestamp last token leaves
the buffer unchanged. -/
theorem whisper_pairing_spec_witness :
    bufGet (whisperPairing ⟨9, 8, 9, 3, JSOptInt.null⟩ [0, 0, 0, 10]
      (List.replicate 12 (Score.num 1))) 10 = Score.negInf ∧
    bufGet (whisperPairing ⟨9, 8, 9, 3, JSOptInt.null⟩ [0, 0, 0, 10]
      (List.replicate 12 (Score.num 1))) 5
      = bufGet (List.replicate 12 (Score.num 1)) 5 ∧
    whisperPairing ⟨9, 8, 9, 3, JSOptInt.null⟩ [0, 0, 0, 2]
      (List.replicate 12 (Score.num 1)) = List.replicate 12 (Score.num 1) := by
  have h := whisper_pairing_spec ⟨9, 8, 9, 3, JSOptInt.null⟩ [0, 0, 0, 10]
    (List.replicate 12 (Score.num 1)) (by decide) (by decide) (by decide) (by decide)
  have h10 := h.2.1 (by decide) (by decide) 10 (by decide) (by decide)
  have h5 := h.2.1 (by decide) (by decide) 5 (by decide) (by decide)
  rw [if_pos (by decide)] at h10
  rw [if_neg (by decide)] at h5
  have h2 := whisper_pairing_spec ⟨9, 8, 9, 3, JSOptInt.null⟩ [0, 0, 0, 2]
    (List.replicate 12 (Score.num 1)) (by decide) (by decide) (by decide) (by decide)
  exact ⟨h10, h5, h2.2.2.2 (by decide)⟩

/-- C3: behavior of the max-initial-timestamp step at history length
`begin_index` (3), `timestamp_begin = 9`, 12-entry buffer.  With
`max_initial_timestamp_index = 1`, exactly the timestamp indices beyond
`9 + 1` are suppressed (the claim's "set" case).  With the field
explicitly `null` the step does not modify the buffer.  But with the
field ABSENT (JS `undefined`) — the natural unset state, since neither
`GenerationConfig` nor the whisper config JSDoc defaults it — the
`!== null` guard still passes, `last_allowed` is NaN, and
`subarray(NaN + 1)` clamps to index 0, so the step suppresses the ENTIRE
buffer, contradicting the claim that an unset
`max_initial_timestamp_index` performs no suppression at all. -/
theorem whisper_max_initial_behavior :
    whisperMaxInitial ⟨9, 8, 9, 3, JSOptInt.num 1⟩ [0, 1, 2]
        (List.replicate 12 (Score.num 1))
      = List.replicate 11 (Score.num 1) ++ [Score.negInf] ∧
    whisperMaxInitial ⟨9, 8, 9, 3, JSOptInt.null⟩ [0, 1, 2]
        (List.replicate 12 (Score.num 1))
      = List.replicate 12 (Score.num 1) ∧
    whisperMaxInitial ⟨9, 8, 9, 3, JSOptInt.undef⟩ [0, 1, 2]
        (List.replicate 12 (Score.num 1))
      = List.replicate 12 Score.negInf := by
  refine ⟨?_, ?_, ?_⟩ <;> decide

/-- C5 witness: `begin_index = 3`, history of length 2, 12-entry buffer:
entry 9 (= `timestamp_begin`) is 0, entry 0 is `-Infinity`. -/
theorem whisper_force_first_timestamp_witness :
    bufGet (whisperCall (fun _ => false) ⟨9, 8, 9, 3, JSOptInt.null⟩ [0, 1]
      (List.replicate 12 (Score.num 1))) 9 = Score.num 0 ∧
    bufGet (whisperCall (fun _ => false) ⟨9, 8, 9, 3, JSOptInt.null⟩ [0, 1]
      (List.replicate 12 (Score.num 1))) 0 = Score.negInf := by
  have h := whisper_force_first_timestamp 9 8 (some [(0, 5)]) JSOptInt.null
    ⟨9, 8, 9, 3, JSOptInt.null⟩ (by decide) (fun _ => false) [0, 1]
    (List.replicate 12 (Score.num 1)) (by decide) (by decide) (by decide)
  exact ⟨h.2.1, h.2.2.1 0 (by decide) (by decide) (by decide)⟩

/-- C1: `LogitsProcessorList._call` rewrites each row's buffer, in row
order, by applying every rule in insertion order to that row's buffer
alone, each rule observing the previous rules' output on that row, and
every invocation — on every row — receives the one shared `input_ids`
history (the single `ids` argument below).  `push`/`extend` append, and a
rule appended last acts on the output of the rules before it. -/
theorem apply_batch_spec (l : LogitsProcessorList) (ids : List ℤ)
    (batch : List Buffer) :
    l.call ids batch = batch.map (runRules l.processors ids) ∧
    (∀ (p : Rule) (buf : Buffer),
      runRules (l.processors ++ [p]) ids buf = p ids (runRules l.processors ids buf)) ∧
    (∀ p : Rule, (l.push p).call ids batch
        = batch.map (fun buf => p ids (runRules l.processors ids buf))) ∧
    (∀ ps : List Rule, (l.extend ps).call ids batch
        = batch.map (fun buf => runRules ps ids (runRules l.processors ids buf))) := by
  refine ⟨callRows_eq_map _ _ _, ?_, ?_, ?_⟩
  · intro p buf
    exact runRules_append l.processors [p] ids buf
  · intro p
    have hfun : runRules (l.processors ++ [p]) ids
        = fun buf => p ids (runRules l.processors ids buf) :=
      funext fun buf => runRules_append l.processors [p] ids buf
    show callRows (l.processors ++ [p]) ids batch = _
    rw [callRows_eq_map, hfun]
  · intro ps
    have hfun : runRules (l.processors ++ ps) ids
        = fun buf => runRules ps ids (runRules l.processors ids buf) :=
      funext fun buf => runRules_append l.processors ps ids buf
    show callRows (l.processors ++ ps) ids batch = _
    rw [callRows_eq_map, hfun]

/-- C9: the repetition penalty with `penalty = 1.0` leaves every buffer
unchanged, for every history (multiplying or dividing by 1 is the
identity, and rewriting an entry with its own value is the identity). -/
theorem repetition_penalty_one_identity (ids : List ℤ) :
    ∀ buf : Buffer, repetitionPenaltyCall 1 ids buf = buf := by
  induction ids with
  | nil => intro buf; rfl
  | cons i rest ih =>
      intro buf
      rw [repetitionPenaltyCall_cons]
      have hbody : (if (bufGet buf i).ltZero then bufSet buf i ((bufGet buf i).mul 1)
          else bufSet buf i ((bufGet buf i).div 1)) = buf := by
        split
        · rw [Score.mul_one, bufSet_bufGet_self]
        · rw [Score.div_one, bufSet_bufGet_self]
      rw [hbody, ih]

/-- C2 counterexample: with `penalty = 2`, history `[0, 0]` (index 0
twice) and buffer `[-1]`, applying the transform once per distinct index
would give `-1 * 2 = -2`, but `RepetitionPenaltyLogitsProcessor._call`
applies it once per occurrence and yields `-4`. -/
theorem repetition_penalty_dedup_counterexample :
    repetitionPenaltyCall 2 [0, 0] [Score.num (-1)] = [Score.num (-4)] ∧
    repetitionPenaltyCall 2 [0, 0] [Score.num (-1)] ≠ [Score.num (-2)] := by
  constructor <;>
    norm_num [repetitionPenaltyCall, bufGet, bufSet, Score.ltZero, Score.mul, Score.div]

/-- C2 amended: the repetition penalty applies its transform once per
OCCURRENCE of an index in the history rather than once per distinct
index: the final score at every index `j` equals the result of folding
the single-score transform (multiply by `penalty` when currently
negative, else divide) over the occurrences of `j` in the history, and an
index with no occurrence is unchanged. -/
theorem repetition_penalty_per_occurrence (p : ℚ) (ids : List ℤ) (buf : Buffer) :
    (repetitionPenaltyCall p ids buf).length = buf.length ∧
    (∀ j : ℤ, bufGet (repetitionPenaltyCall p ids buf) j =
      (ids.filter (fun i => decide (i = j))).foldl
        (fun s _ => penaltyStep p s) (bufGet buf j)) ∧
    (∀ j : ℤ, j ∉ ids → bufGet (repetitionPenaltyCall p ids buf) j = bufGet buf j) := by
  refine ⟨repetitionPenaltyCall_length p ids buf, fun j => repetitionPenaltyCall_get p ids buf j, ?_⟩
  intro j hj
  rw [repetitionPenaltyCall_get p ids buf j]
  have hfil : ids.filter (fun i => decide (i = j)) = [] := by
    rw [List.filter_eq_nil_iff]
    intro a ha
    simp only [decide_eq_true_eq]
    intro hEq
    exact hj (hEq ▸ ha)
  rw [hfil]
  rfl

/-- C2 amended, witness: history `[3, 5, 3]` with buffer
`[1, -1, 1, -8, 1, 2]` and penalty `2`: index 3 occurs twice and ends at
`-8 * 2 * 2 = -32`, index 5 occurs once and ends at `2 / 2 = 1`, index 1
does not occur and is unchanged. -/
theorem repetition_penalty_per_occurrence_witness :
    bufGet (repetitionPenaltyCall 2 [3, 5, 3]
        [Score.num 1, Score.num (-1), Score.num 1, Score.num (-8), Score.num 1, Score.num 2]) 1
      = bufGet [Score.num 1, Score.num (-1), Score.num 1, Score.num (-8),
          Score.num 1, Score.num 2] 1 :=
  (repetition_penalty_per_occurrence 2 [3, 5, 3]
    [Score.num 1, Score.num (-1), Score.num 1, Score.num (-8),
      Score.num 1, Score.num 2]).2.2 1 (by decide)

/-- C8: `ForceTokensLogitsProcessor._call` — when the forcing map has an
entry `t` for the current history length, the resulting buffer is `0` at
`t` and `-Infinity` everywhere else; when it has none, the buffer is
returned unchanged. -/
theorem force_tokens_spec (forced : List (ℤ × ℤ)) (ids : List ℤ) (buf : Buffer) :
    (∀ t : ℤ, forceTokenMapGet forced (ids.length : ℤ) = some t →
      0 ≤ t → t.toNat < buf.length →
        bufGet (forceTokensCall forced ids buf) t = Score.num 0 ∧
        (∀ j : ℤ, 0 ≤ j → j.toNat < buf.length → j ≠ t →
          bufGet (forceTokensCall forced ids buf) j = Score.negInf)) ∧
    (forceTokenMapGet forced (ids.length : ℤ) = none →
      forceTokensCall forced ids buf = buf) := by
  constructor
  · intro t ht h0 h1
    unfold forceTokensCall
    rw [ht]
    constructor
    · exact bufGet_bufSet_self _ _ _ h0 (by simpa using h1)
    · intro j hj0 hj1 hjt
      rw [bufGet_bufSet_ne _ _ _ _ (fun hEq => hjt hEq.symm)]
      exact bufGet_map_const buf j hj0 hj1 _
  · intro hn
    unfold forceTokensCall
    rw [hn]

/-- C8 witness: map `[(2, 1)]`, history of length 2, vocabulary of size
3: entry 1 becomes 0, entry 0 becomes `-Infinity`; and with history of
length 1 (no map entry) the buffer is unchanged. -/
theorem force_tokens_spec_witness :
    bufGet (forceTokensCall [(2, 1)] [7, 8]
        [Score.num 5, Score.num 6, Score.num 7]) 1 = Score.num 0 ∧
    bufGet (forceTokensCall [(2, 1)] [7, 8]
        [Score.num 5, Score.num 6, Score.num 7]) 0 = Score.negInf ∧
    forceTokensCall [(2, 1)] [7] [Score.num 5, Score.num 6, Score.num 7]
      = [Score.num 5, Score.num 6, Score.num 7] := by
  have h := force_tokens_spec [(2, 1)] [7, 8] [Score.num 5, Score.num 6, Score.num 7]
  have ha := h.1 1 (by decide) (by decide) (by decide)
  have hb := force_tokens_spec [(2, 1)] [7] [Score.num 5, Score.num 6, Score.num 7]
  exact ⟨ha.1, ha.2 0 (by decide) (by decide) (by decide), hb.2 (by decide)⟩

/-- C7: for the NoRepeatNGram rule with n ≥ 1, a token is banned iff some
n-length contiguous window of the history (the window at offset `j` is
`(ids.drop j).take n`, existing when `j + n ≤ ids.length`) has its first
`n − 1` elements equal, as a sequence, to the most recent `n − 1`
elements of the history (`ids.drop (ids.length + 1 − n)`), and the token
is the window's final element; applying the rule sets exactly the banned
in-range indices to `-Infinity` and leaves every other entry unchanged;
if `history length + 1 < n` nothing is banned; and with `n = 2`,
history `[5, 3, 5, 3]`, exactly token `5` is banned. -/
theorem no_repeat_ngram_spec (n : Nat) (hn : 1 ≤ n) (ids : List ℤ) (buf : Buffer) :
    (ids.length + 1 < n → calcBannedNgramTokens n ids = []) ∧
    (∀ t : ℤ, t ∈ calcBannedNgramTokens n ids ↔
      ∃ j, j + n ≤ ids.length ∧
        (ids.drop j).take (n - 1) = ids.drop (ids.length + 1 - n) ∧
        t = ids.getD (j + (n - 1)) 0) ∧
    (∀ j : ℤ, bufGet (noRepeatNGramCall n ids buf) j =
      if j ∈ calcBannedNgramTokens n ids ∧ 0 ≤ j ∧ j.toNat < buf.length
      then Score.negInf else bufGet buf j) ∧
    calcBannedNgramTokens 2 [5, 3, 5, 3] = [5] := by
  refine ⟨?_, fun t => calcBanned_mem_iff n hn ids t,
    fun j => foldl_bufSet_negInf _ buf j, by decide⟩
  intro hshort
  unfold calcBannedNgramTokens
  rw [if_pos hshort]

/-- C7 witness: `n = 2`, history `[5, 3, 5, 3]`, six-entry buffer: the
banned set is exactly `[5]`, entry 5 is suppressed and entry 3 is
unchanged. -/
theorem no_repeat_ngram_spec_witness :
    calcBannedNgramTokens 2 [5, 3, 5, 3] = [5] ∧
    bufGet (noRepeatNGramCall 2 [5, 3, 5, 3] (List.replicate 6 (Score.num 1))) 5
      = Score.negInf ∧
    bufGet (noRepeatNGramCall 2 [5, 3, 5, 3] (List.replicate 6 (Score.num 1))) 3
      = bufGet (List.replicate 6 (Score.num 1)) 3 := by
  have h := no_repeat_ngram_spec 2 (by decide) [5, 3, 5, 3]
    (List.replicate 6 (Score.num 1))
  have h5 := h.2.2.1 5
  have h3 := h.2.2.1 3
  rw [if_pos (by decide)] at h5
  rw [if_neg (by decide)] at h3
  exact ⟨h.2.2.2, h5, h3⟩

end LogitsSpec
